import Mathlib

/-!
Verification of the natural-language specification of `quickff` against a
shallow embedding of `lib/cost.py`.

The embedding models numpy arrays over `ℚ` (exact arithmetic standing in for
IEEE floats), numpy matrices as functions, and the in-place mutation of
`system.ref.hess` performed by `_update_lstsq_matrices` as explicit state
passing: the function returns the new `SystemState` alongside `A`, `B`, `C`.
`ndofs = 3 * natoms` is the abstract dimension parameter `d`.
-/

/-- Modelled from the spec: `matrix_squared_sum` is imported from
`quickff.tools`, which is not part of the embedded source file; the spec
defines it as the Frobenius inner product, the sum over all matrix entries of
`X[p][q] * Y[p][q]`. -/
def matrix_squared_sum {d : ℕ} (X Y : Matrix (Fin d) (Fin d) ℚ) : ℚ :=
  ∑ p : Fin d, ∑ q : Fin d, X p q * Y p q

/-- The part of the external `System` collaborator that `cost.py` reads: the ab
initio reference Hessian `system.ref.hess`, already reshaped to the
`ndofs x ndofs` square form, and the keys of the `system.ics` dictionary
(internal coordinate names). -/
structure SystemState (d : ℕ) where
  refHess : Matrix (Fin d) (Fin d) ℚ
  icKeys : List String

/-- The part of the external `Model` collaborator that `cost.py` reads:
`model.ei.calc_hessian(system.ref.coords)` reshaped to square form (the
reference geometry is fixed throughout, so the callable is represented by its
value there), the keys of `model.val.vterms`, for each key the list of
unit-force-constant Hessians `vterm.calc_hessian(coords=..., k=1.0)` of the
terms in that group, `model.val.nterms`, and `model.val.get_fcs()`. -/
structure ModelState (d : ℕ) where
  eiHess : Matrix (Fin d) (Fin d) ℚ
  vtermKeys : List String
  vtermHess : String → List (Matrix (Fin d) (Fin d) ℚ)
  nterms : ℕ
  fcs : List ℚ

/-- Lexicographic comparison of two character lists by code point, the order
Python uses to compare strings. -/
def lexLe : List Char → List Char → Bool
  | [], _ => true
  | _ :: _, [] => false
  | a :: as, b :: bs =>
    if a.toNat < b.toNat then true
    else if b.toNat < a.toNat then false
    else lexLe as bs

/-- The order on strings underlying Python `sorted`. -/
def strLe (s t : String) : Prop :=
  lexLe s.data t.data = true

instance : DecidableRel strLe :=
  fun s t => inferInstanceAs (Decidable (lexLe s.data t.data = true))

instance : IsTotal String strLe := by
  constructor
  intro a b
  show lexLe a.data b.data = true ∨ lexLe b.data a.data = true
  generalize a.data = as
  generalize b.data = bs
  induction as generalizing bs with
  | nil => left; rfl
  | cons x xs ih =>
    cases bs with
    | nil => right; rfl
    | cons y ys =>
      rcases ih ys with h | h <;>
        simp only [lexLe, h] <;> split_ifs <;> simp_all

instance : IsTrans String strLe := by
  constructor
  intro a b c
  show lexLe a.data b.data = true → lexLe b.data c.data = true →
    lexLe a.data c.data = true
  generalize a.data = as
  generalize b.data = bs
  generalize c.data = cs
  induction as generalizing bs cs with
  | nil => intro _ _; rfl
  | cons x xs ih =>
    intro hab hbc
    cases bs with
    | nil => simp [lexLe] at hab
    | cons y ys =>
      cases cs with
      | nil => simp [lexLe] at hbc
      | cons z zs =>
        simp only [lexLe] at hab hbc ⊢
        split_ifs at hab hbc ⊢ <;>
          first
            | rfl
            | omega
            | exact ih ys zs hab hbc

instance : IsAntisymm String strLe := by
  constructor
  intro a b
  show lexLe a.data b.data = true → lexLe b.data a.data = true → a = b
  have key : ∀ as bs : List Char, lexLe as bs = true → lexLe bs as = true →
      as = bs := by
    intro as
    induction as with
    | nil =>
      intro bs h1 h2
      cases bs with
      | nil => rfl
      | cons y ys => simp [lexLe] at h2
    | cons x xs ih =>
      intro bs h1 h2
      cases bs with
      | nil => simp [lexLe] at h1
      | cons y ys =>
        simp only [lexLe] at h1 h2
        split_ifs at h1 h2 <;> try omega
        have hxy : x = y := by
          have hn : x.toNat = y.toNat := by omega
          have := congrArg Char.ofNat hn
          rwa [Char.ofNat_toNat, Char.ofNat_toNat] at this
        rw [hxy, ih ys h1 h2]
  intro h1 h2
  have hd := key a.data b.data h1 h2
  cases a
  cases b
  exact congrArg String.mk hd

/-- Python `sorted(keys)`: the lexicographic (code point) sort of a list of
strings, matching `sorted(self.system.ics.keys())` and
`sorted(self.model.val.vterms.keys())`. -/
def sortedKeys (l : List String) : List String :=
  List.insertionSort strLe l

/-- A single numpy array store `A[i, j] = v` on a matrix modelled as a total
function. -/
def writeMat (A : ℕ → ℕ → ℚ) (i j : ℕ) (v : ℚ) : ℕ → ℕ → ℚ :=
  fun p q => if p = i ∧ q = j then v else A p q

/-- The inner loop of `_update_lstsq_matrices`:
`for j in xrange(i+1): A[i, j] = matrix_squared_sum(h[i], h[j]); A[j, i] = A[i, j]`. -/
def rowWrite {d : ℕ} (h : ℕ → Matrix (Fin d) (Fin d) ℚ) (i : ℕ) (A : ℕ → ℕ → ℚ) :
    ℕ → ℕ → ℚ :=
  (List.range (i + 1)).foldl
    (fun Ac j =>
      writeMat (writeMat Ac i j (matrix_squared_sum (h i) (h j))) j i
        (matrix_squared_sum (h i) (h j)))
    A

/-- The outer loop of `_update_lstsq_matrices`:
`for i, icname in enumerate(sorted(self.system.ics.keys())): ...`, threading
the mutable `h`, `A` and `B` arrays.  `h` starts as `np.zeros`, each iteration
accumulates the unit-force-constant Hessians of group `icname` into `h[i]`,
stores `B[i] = matrix_squared_sum(h[i], ref)` and runs the inner loop. -/
def refreshLoop {d : ℕ} (ref : Matrix (Fin d) (Fin d) ℚ)
    (vt : String → List (Matrix (Fin d) (Fin d) ℚ)) :
    List String → ℕ → (ℕ → Matrix (Fin d) (Fin d) ℚ) → (ℕ → ℕ → ℚ) → List ℚ →
      ((ℕ → Matrix (Fin d) (Fin d) ℚ) × (ℕ → ℕ → ℚ) × List ℚ)
  | [], _, h, A, B => (h, A, B)
  | name :: rest, i, h, A, B =>
    let hi := (vt name).foldl (· + ·) (h i)
    let h2 : ℕ → Matrix (Fin d) (Fin d) ℚ := fun p => if p = i then hi else h p
    let B2 := B.set i (matrix_squared_sum hi ref)
    let A2 := rowWrite h2 i A
    refreshLoop ref vt rest (i + 1) h2 A2 B2

/-- `HessianFCCost._update_lstsq_matrices`.  `ref` is a numpy *view* of
`system.ref.hess`, so the line `ref -= self.model.ei.calc_hessian(...)`
subtracts the electrostatic Hessian from the caller-owned reference buffer in
place; this is modelled by returning the mutated `SystemState` as the first
component.  `A` and `B` are re-created as zeros before the accumulation loop,
and `C = matrix_squared_sum(ref, ref)` is computed last. -/
def update_lstsq_matrices {d : ℕ} (sys : SystemState d) (mdl : ModelState d) :
    SystemState d × (ℕ → ℕ → ℚ) × List ℚ × ℚ :=
  let ref := sys.refHess - mdl.eiHess
  let names := sortedKeys sys.icKeys
  let R := refreshLoop ref mdl.vtermHess names 0 (fun _ => 0) (fun _ _ => 0)
    (List.replicate mdl.nterms 0)
  ({ sys with refHess := ref }, R.2.1, R.2.2, matrix_squared_sum ref ref)

/-- The mutable state of a `HessianFCCost` instance: the two collaborators it
holds references to, plus `self._A`, `self._B`, `self._C`. -/
structure HessianFCCost (d : ℕ) where
  system : SystemState d
  model : ModelState d
  A : ℕ → ℕ → ℚ
  B : List ℚ
  C : ℚ

/-- `HessianFCCost.__init__`: `_A` and `_B` are allocated as
`np.zeros([nterms, nterms])` and `np.zeros([nterms])`, `_C = 0.0`. -/
def HessianFCCost.init {d : ℕ} (sys : SystemState d) (mdl : ModelState d) :
    HessianFCCost d :=
  { system := sys, model := mdl, A := fun _ _ => 0,
    B := List.replicate mdl.nterms 0, C := 0 }

/-- The effect of calling `self._update_lstsq_matrices()` on the object state:
`system.ref.hess` is mutated and `_A`, `_B`, `_C` are overwritten. -/
def HessianFCCost.update {d : ℕ} (c : HessianFCCost d) : HessianFCCost d :=
  let R := update_lstsq_matrices c.system c.model
  { c with system := R.1, A := R.2.1, B := R.2.2.1, C := R.2.2.2 }

/-- Python `icname.split('/')[0]`: the interaction-kind part of a term name,
everything before the first `'/'` (the whole name when there is none). -/
def kindOf (name : String) : String :=
  String.mk (name.data.takeWhile (fun c => c ≠ '/'))

/-- Python `icname.startswith('dihed')`. -/
def isDihed (name : String) : Bool :=
  "dihed".data.isPrefixOf name.data

/-- Python `fixed is not None and icname.split('/')[0] in fixed`. -/
def fixedHit (fixed : Option (List String)) (icname : String) : Bool :=
  match fixed with
  | none => false
  | some fl => decide (kindOf icname ∈ fl)

/-- The dictionary built by `BaseConstraint.__call__` for
`scipy.optimize.minimize`: the constraint type tag (`'eq'` or `'ineq'`), the
value function and the jacobian function. -/
structure Cdict where
  ctype : String
  cfun : List ℚ → ℚ
  cjac : List ℚ → List ℚ

/-- `np.zeros(npars)` with entry `index` overwritten by `v`: the jacobian
array built once by each constraint class and returned by a constant closure. -/
def oneHot (npars index : ℕ) (v : ℚ) : List ℚ :=
  (List.range npars).map (fun p => if p = index then v else 0)

/-- `FixedValueConstraint(index, value, npars)`: an `'eq'` constraint. -/
structure FixedValueConstraint where
  index : ℕ
  value : ℚ
  npars : ℕ

/-- `FixedValueConstraint.__call__`: value `k[index] - value`, jacobian the
`+1` one-hot vector at `index`, independent of `k`. -/
def FixedValueConstraint.call (c : FixedValueConstraint) : Cdict :=
  { ctype := "eq",
    cfun := fun k => k.getD c.index 0 - c.value,
    cjac := fun _ => oneHot c.npars c.index 1 }

/-- `LowerLimitConstraint(index, lower, npars)`: an `'ineq'` constraint. -/
structure LowerLimitConstraint where
  index : ℕ
  lower : ℚ
  npars : ℕ

/-- `LowerLimitConstraint.__call__`: value `k[index] - lower`, jacobian the
`+1` one-hot vector at `index`, independent of `k`. -/
def LowerLimitConstraint.call (c : LowerLimitConstraint) : Cdict :=
  { ctype := "ineq",
    cfun := fun k => k.getD c.index 0 - c.lower,
    cjac := fun _ => oneHot c.npars c.index 1 }

/-- `UpperLimitConstraint(index, upper, npars)`: an `'ineq'` constraint. -/
structure UpperLimitConstraint where
  index : ℕ
  upper : ℚ
  npars : ℕ

/-- `UpperLimitConstraint.__call__`: value `upper - k[index]`, jacobian the
`-1` one-hot vector at `index`, independent of `k`. -/
def UpperLimitConstraint.call (c : UpperLimitConstraint) : Cdict :=
  { ctype := "ineq",
    cfun := fun k => c.upper - k.getD c.index 0,
    cjac := fun _ => oneHot c.npars c.index (-1) }

/-- The constraints appended for loop index `i` inside
`HessianFCCost._define_constraints`.  `kjmol` is the unit-conversion constant
imported from the external `molmod.units` library, kept as a parameter. -/
def constraintChunk {d : ℕ} (kjmol : ℚ) (mdl : ModelState d)
    (fixed : Option (List String)) (kinit : List ℚ) (i : ℕ) : List Cdict :=
  let icname := (sortedKeys mdl.vtermKeys).getD i ""
  if fixedHit fixed icname then
    [(FixedValueConstraint.mk i (kinit.getD i 0) mdl.nterms).call]
  else if isDihed icname then
    [(LowerLimitConstraint.mk i (0 * kjmol) mdl.nterms).call,
     (UpperLimitConstraint.mk i (200 * kjmol) mdl.nterms).call]
  else
    [(LowerLimitConstraint.mk i 0 mdl.nterms).call]

/-- `HessianFCCost._define_constraints(fixed, kinit)`: one pass of appends over
`i in xrange(self.model.val.nterms)`. -/
def define_constraints {d : ℕ} (kjmol : ℚ) (mdl : ModelState d)
    (fixed : Option (List String)) (kinit : List ℚ) : List Cdict :=
  ((List.range mdl.nterms).map (constraintChunk kjmol mdl fixed kinit)).flatten

/-- `np.dot(A, k)` for a square `n x n` matrix and a vector: fails (numpy
`ValueError`) unless `len(k) = n`. -/
def npdotMat (n : ℕ) (A : ℕ → ℕ → ℚ) (k : List ℚ) : Option (List ℚ) :=
  if k.length = n then
    some ((List.range n).map (fun i => ((List.range n).map (fun j => A i j * k.getD j 0)).sum))
  else none

/-- `np.dot(v, w)` for two vectors: fails (numpy `ValueError`) unless the
lengths agree. -/
def npdotVec (v w : List ℚ) : Option ℚ :=
  if v.length = w.length then some ((List.zipWith (· * ·) v w).sum) else none

/-- `HessianFCCost.fun(self, k, do_grad=False)`:
`chi2 = 0.5*np.dot(k.T, np.dot(A, k)) - np.dot(B.T, k) + 0.5*C`, and when
`do_grad` also `gchi2 = np.dot(A, k) - B`.  The optional gradient is the
second component; `none` overall models the numpy shape error. -/
def HessianFCCost.costfun {d : ℕ} (c : HessianFCCost d) (k : List ℚ)
    (do_grad : Bool := false) : Option (ℚ × Option (List ℚ)) :=
  match npdotMat c.model.nterms c.A k with
  | none => none
  | some Ak =>
    match npdotVec k Ak, npdotVec c.B k with
    | some kAk, some Bk =>
      let chi2 := (1 / 2 : ℚ) * kAk - Bk + (1 / 2 : ℚ) * c.C
      if do_grad then some (chi2, some (List.zipWith (· - ·) Ak c.B))
      else some (chi2, none)
    | _, _ => none

/-- The argument record handed to the external `scipy.optimize.minimize` call
inside `HessianFCCost.estimate`.  The `objective` is the bound method
`self.fun` exactly as passed: `do_grad` keeps its default `False` and no `jac`
argument is given, so each optimizer evaluation yields the cost value with no
gradient (second component `none`). -/
structure MinimizeArgs where
  objective : List ℚ → Option (ℚ × Option (List ℚ))
  x0 : List ℚ
  method : String
  constraints : List Cdict
  tol : ℚ
  disp : Bool

/-- The `minimize(...)` call built by `HessianFCCost.estimate(fixed)`:
`kinit = self.model.val.get_fcs()`, then the constraint set, then the refresh
of `A`, `B`, `C` (whose mutated state the objective closes over). -/
def estimateArgs {d : ℕ} (kjmol : ℚ) (c : HessianFCCost d)
    (fixed : Option (List String)) : MinimizeArgs :=
  let kinit := c.model.fcs
  let constraints := define_constraints kjmol c.model fixed kinit
  let c2 := c.update
  { objective := fun k => c2.costfun k false,
    x0 := kinit,
    method := "SLSQP",
    constraints := constraints,
    tol := 1 / 1000000000,
    disp := false }

/-- `HessianFCCost.estimate(fixed)`: invokes the external optimizer `opt`
(abstracted as a function of the argument record) and returns `result.x`
together with the mutated object state.  Nothing is written back into the
model's terms. -/
def HessianFCCost.estimate {d : ℕ} (kjmol : ℚ) (c : HessianFCCost d)
    (fixed : Option (List String)) (opt : MinimizeArgs → List ℚ) :
    List ℚ × HessianFCCost d :=
  (opt (estimateArgs kjmol c fixed), c.update)

/-- The accumulated unit-force-constant Hessian `h[i]` of the term group at
position `i` of a sorted key list: the sum of
`vterm.calc_hessian(coords, k=1.0)` over `self.model.val.vterms[icname]`,
starting from the `np.zeros` row of `h`. -/
def groupHess {d : ℕ} (vt : String → List (Matrix (Fin d) (Fin d) ℚ))
    (names : List String) (i : ℕ) : Matrix (Fin d) (Fin d) ℚ :=
  (vt (names.getD i "")).foldl (· + ·) 0

/-- A concrete `3 x 3` matrix with a single nonzero entry, used as a test
Hessian. -/
def e00 : Matrix (Fin 3) (Fin 3) ℚ :=
  Matrix.of fun p q => if p = 0 ∧ q = 0 then 1 else 0

/-- A concrete single-atom system (`ndofs = 3`) with one internal
coordinate. -/
def sys1 : SystemState 3 :=
  { refHess := e00, icKeys := ["bond/1"] }

/-- A concrete model matching `sys1`: a nonzero electrostatic Hessian and one
term group whose single term has unit Hessian `e00`. -/
def mdl1 : ModelState 3 :=
  { eiHess := e00,
    vtermKeys := ["bond/1"],
    vtermHess := fun s => if s = "bond/1" then [e00] else [],
    nterms := 1,
    fcs := [300] }

/-- The cost object over `sys1` and `mdl1` as built by `__init__`. -/
def cost1 : HessianFCCost 3 :=
  HessianFCCost.init sys1 mdl1

/-- A concrete three-term model (one bond, one angle, one dihedral group) used
to exercise the constraint rules. -/
def mdl3 : ModelState 3 :=
  { eiHess := 0,
    vtermKeys := ["bond/1", "dihed/2", "angle/3"],
    vtermHess := fun _ => [],
    nterms := 3,
    fcs := [5, 7, 11] }

theorem writeMat_apply (A : ℕ → ℕ → ℚ) (i j : ℕ) (v : ℚ) (p q : ℕ) :
    writeMat A i j v p q = if p = i ∧ q = j then v else A p q := rfl

theorem range_foldl_write {d : ℕ} (h : ℕ → Matrix (Fin d) (Fin d) ℚ) (i : ℕ)
    (A : ℕ → ℕ → ℚ) (m : ℕ) (p q : ℕ) :
    ((List.range m).foldl
      (fun Ac j =>
        writeMat (writeMat Ac i j (matrix_squared_sum (h i) (h j))) j i
          (matrix_squared_sum (h i) (h j))) A) p q =
    if p = i ∧ q < m then matrix_squared_sum (h i) (h q)
    else if q = i ∧ p < m then matrix_squared_sum (h i) (h p)
    else A p q := by
  induction m with
  | zero => simp
  | succ m ih =>
    rw [List.range_succ, List.foldl_append, List.foldl_cons, List.foldl_nil,
      writeMat_apply, writeMat_apply, ih]
    split_ifs <;>
      first
        | rfl
        | omega
        | exact congrArg _ (congrArg h (by omega))

theorem rowWrite_apply {d : ℕ} (h : ℕ → Matrix (Fin d) (Fin d) ℚ) (i : ℕ)
    (A : ℕ → ℕ → ℚ) (p q : ℕ) :
    rowWrite h i A p q =
      if p = i ∧ q ≤ i then matrix_squared_sum (h i) (h q)
      else if q = i ∧ p ≤ i then matrix_squared_sum (h i) (h p)
      else A p q := by
  have := range_foldl_write h i A (i + 1) p q
  simpa [Nat.lt_succ_iff, rowWrite] using this

theorem getD_set_eq (l : List ℚ) (i : ℕ) (a : ℚ) (h : i < l.length) :
    (l.set i a).getD i 0 = a := by
  rw [List.getD_eq_getElem _ _ (by simpa using h)]
  simp

theorem getD_set_ne (l : List ℚ) (i p : ℕ) (a : ℚ) (h : p ≠ i) :
    (l.set i a).getD p 0 = l.getD p 0 := by
  rcases Nat.lt_or_ge p l.length with hp | hp
  · rw [List.getD_eq_getElem _ _ (by simpa using hp), List.getD_eq_getElem _ _ hp]
    exact List.getElem_set_ne (Ne.symm h) _
  · rw [List.getD_eq_default _ _ (by simpa using hp), List.getD_eq_default _ _ hp]

theorem getD_set_oob (l : List ℚ) (i : ℕ) (a : ℚ) (h : l.length ≤ i) :
    (l.set i a).getD i 0 = l.getD i 0 := by
  rw [List.set_eq_of_length_le h]

theorem refreshLoop_append {d : ℕ} (ref : Matrix (Fin d) (Fin d) ℚ)
    (vt : String → List (Matrix (Fin d) (Fin d) ℚ)) (l1 l2 : List String) (i : ℕ)
    (h : ℕ → Matrix (Fin d) (Fin d) ℚ) (A : ℕ → ℕ → ℚ) (B : List ℚ) :
    refreshLoop ref vt (l1 ++ l2) i h A B =
      refreshLoop ref vt l2 (i + l1.length)
        (refreshLoop ref vt l1 i h A B).1
        (refreshLoop ref vt l1 i h A B).2.1
        (refreshLoop ref vt l1 i h A B).2.2 := by
  induction l1 generalizing i h A B with
  | nil => simp [refreshLoop]
  | cons y ys ih =>
    simp only [List.cons_append, refreshLoop, List.append_eq]
    rw [ih]
    have harith : i + (ys.length + 1) = i + 1 + ys.length := by omega
    simp [List.length_cons, harith]

theorem groupHess_append_lt {d : ℕ} (vt : String → List (Matrix (Fin d) (Fin d) ℚ))
    (ns : List String) (x : String) (p : ℕ) (hp : p < ns.length) :
    groupHess vt (ns ++ [x]) p = groupHess vt ns p := by
  unfold groupHess
  rw [List.getD_append _ _ _ _ hp]

theorem groupHess_append_last {d : ℕ} (vt : String → List (Matrix (Fin d) (Fin d) ℚ))
    (ns : List String) (x : String) :
    groupHess vt (ns ++ [x]) ns.length = (vt x).foldl (· + ·) 0 := by
  unfold groupHess
  rw [List.getD_append_right _ _ _ _ (Nat.le_refl _)]
  simp

theorem refreshLoop_spec {d : ℕ} (ref : Matrix (Fin d) (Fin d) ℚ)
    (vt : String → List (Matrix (Fin d) (Fin d) ℚ)) (B0 : List ℚ)
    (names : List String) :
    (∀ p, (refreshLoop ref vt names 0 (fun _ => 0) (fun _ _ => 0) B0).1 p =
      if p < names.length then groupHess vt names p else 0)
    ∧ (∀ p q, (refreshLoop ref vt names 0 (fun _ => 0) (fun _ _ => 0) B0).2.1 p q =
      if p < names.length ∧ q < names.length then
        if q ≤ p then matrix_squared_sum (groupHess vt names p) (groupHess vt names q)
        else matrix_squared_sum (groupHess vt names q) (groupHess vt names p)
      else 0)
    ∧ (refreshLoop ref vt names 0 (fun _ => 0) (fun _ _ => 0) B0).2.2.length = B0.length
    ∧ (∀ p, (refreshLoop ref vt names 0 (fun _ => 0) (fun _ _ => 0) B0).2.2.getD p 0 =
      if p < names.length ∧ p < B0.length then
        matrix_squared_sum (groupHess vt names p) ref
      else B0.getD p 0) := by
  induction names using List.reverseRecOn with
  | nil =>
    exact ⟨fun p => by simp [refreshLoop], fun p q => by simp [refreshLoop],
      by simp [refreshLoop], fun p => by simp [refreshLoop]⟩
  | append_singleton ns x ih =>
    obtain ⟨ihh, ihA, ihlen, ihB⟩ := ih
    rw [refreshLoop_append ref vt ns [x] 0 (fun _ => 0) (fun _ _ => 0) B0]
    set L := refreshLoop ref vt ns 0 (fun _ => 0) (fun _ _ => 0) B0 with hLdef
    set m := ns.length with hm
    simp only [refreshLoop, Nat.zero_add, List.length_append, List.length_singleton]
    have hLm : L.1 m = 0 := by rw [ihh]; simp
    have hhi : List.foldl (· + ·) (L.1 m) (vt x) = groupHess vt (ns ++ [x]) m := by
      rw [hLm, groupHess_append_last]
    have key1 : ∀ p, (if p = m then List.foldl (· + ·) (L.1 m) (vt x) else L.1 p) =
        (if p < m + 1 then groupHess vt (ns ++ [x]) p else 0) := by
      intro p
      by_cases hpm : p = m
      · subst hpm
        rw [if_pos rfl, if_pos (by omega), hhi]
      · rw [if_neg hpm, ihh p]
        by_cases hpl : p < m
        · rw [if_pos hpl, if_pos (by omega), groupHess_append_lt vt ns x p hpl]
        · rw [if_neg hpl, if_neg (by omega)]
    have ihA2 : ∀ p q, L.2.1 p q =
        if p < m ∧ q < m then
          if q ≤ p then
            matrix_squared_sum (groupHess vt (ns ++ [x]) p) (groupHess vt (ns ++ [x]) q)
          else
            matrix_squared_sum (groupHess vt (ns ++ [x]) q) (groupHess vt (ns ++ [x]) p)
        else 0 := by
      intro p q
      rw [ihA p q]
      by_cases hb : p < m ∧ q < m
      · rw [if_pos hb, if_pos hb,
          groupHess_append_lt vt ns x p hb.1, groupHess_append_lt vt ns x q hb.2]
      · rw [if_neg hb, if_neg hb]
    refine ⟨?_, ?_, ?_, ?_⟩
    · intro p
      exact key1 p
    · intro p q
      rw [rowWrite_apply]
      simp only [key1, hhi, ihA2]
      split_ifs <;>
        first
          | rfl
          | omega
          | (congr 1 <;>
              first
                | rfl
                | exact congrArg _ (by omega)
                | (rw [ihh, if_pos (by omega)]
                   exact (groupHess_append_lt vt ns x _ (by omega)).symm))
    · rw [List.length_set, ihlen]
    · intro p
      by_cases hpm : p = m
      · rw [hpm]
        by_cases hlen2 : m < B0.length
        · rw [getD_set_eq _ _ _ (by rw [ihlen]; exact hlen2), hhi,
            if_pos ⟨by omega, hlen2⟩]
        · rw [getD_set_oob _ _ _ (by rw [ihlen]; omega), ihB m,
            if_neg (by omega), if_neg (by omega)]
      · rw [getD_set_ne _ _ _ _ hpm, ihB p]
        by_cases hpl : p < m
        · by_cases hpB : p < B0.length
          · rw [if_pos ⟨hpl, hpB⟩, if_pos ⟨by omega, hpB⟩,
              groupHess_append_lt vt ns x p hpl]
          · rw [if_neg (by tauto), if_neg (by tauto)]
        · rw [if_neg (by omega), if_neg (by omega)]

theorem getD_replicate_zero (n p : ℕ) : (List.replicate n (0 : ℚ)).getD p 0 = 0 := by
  rw [List.getD_eq_getD_get?]
  rcases Nat.lt_or_ge p n with hp | hp
  · rw [List.get?_eq_getElem?, List.getElem?_replicate]
    simp [hp]
  · rw [List.get?_eq_getElem?, List.getElem?_eq_none (by simpa using hp)]
    rfl

theorem update_spec {d : ℕ} (sys : SystemState d) (mdl : ModelState d) :
    (update_lstsq_matrices sys mdl).1.refHess = sys.refHess - mdl.eiHess
    ∧ (update_lstsq_matrices sys mdl).1.icKeys = sys.icKeys
    ∧ (∀ p q, (update_lstsq_matrices sys mdl).2.1 p q =
        if p < (sortedKeys sys.icKeys).length ∧ q < (sortedKeys sys.icKeys).length then
          if q ≤ p then
            matrix_squared_sum (groupHess mdl.vtermHess (sortedKeys sys.icKeys) p)
              (groupHess mdl.vtermHess (sortedKeys sys.icKeys) q)
          else
            matrix_squared_sum (groupHess mdl.vtermHess (sortedKeys sys.icKeys) q)
              (groupHess mdl.vtermHess (sortedKeys sys.icKeys) p)
        else 0)
    ∧ (update_lstsq_matrices sys mdl).2.2.1.length = mdl.nterms
    ∧ (∀ p, (update_lstsq_matrices sys mdl).2.2.1.getD p 0 =
        if p < (sortedKeys sys.icKeys).length ∧ p < mdl.nterms then
          matrix_squared_sum (groupHess mdl.vtermHess (sortedKeys sys.icKeys) p)
            (sys.refHess - mdl.eiHess)
        else 0)
    ∧ (update_lstsq_matrices sys mdl).2.2.2 =
        matrix_squared_sum (sys.refHess - mdl.eiHess) (sys.refHess - mdl.eiHess) := by
  obtain ⟨hh, hA, hlen, hB⟩ := refreshLoop_spec (sys.refHess - mdl.eiHess) mdl.vtermHess
    (List.replicate mdl.nterms 0) (sortedKeys sys.icKeys)
  refine ⟨rfl, rfl, ?_, ?_, ?_, rfl⟩
  · intro p q
    exact hA p q
  · rw [show (update_lstsq_matrices sys mdl).2.2.1 =
      (refreshLoop (sys.refHess - mdl.eiHess) mdl.vtermHess (sortedKeys sys.icKeys) 0
        (fun _ => 0) (fun _ _ => 0) (List.replicate mdl.nterms 0)).2.2 from rfl, hlen]
    exact List.length_replicate _ _
  · intro p
    rw [show (update_lstsq_matrices sys mdl).2.2.1 =
      (refreshLoop (sys.refHess - mdl.eiHess) mdl.vtermHess (sortedKeys sys.icKeys) 0
        (fun _ => 0) (fun _ _ => 0) (List.replicate mdl.nterms 0)).2.2 from rfl, hB p,
      List.length_replicate, getD_replicate_zero]

theorem matrix_squared_sum_comm {d : ℕ} (X Y : Matrix (Fin d) (Fin d) ℚ) :
    matrix_squared_sum X Y = matrix_squared_sum Y X :=
  Finset.sum_congr rfl fun _ _ => Finset.sum_congr rfl fun _ _ => mul_comm _ _

theorem matrix_squared_sum_self_nonneg {d : ℕ} (X : Matrix (Fin d) (Fin d) ℚ) :
    0 ≤ matrix_squared_sum X X :=
  Finset.sum_nonneg fun _ _ => Finset.sum_nonneg fun _ _ => mul_self_nonneg _

theorem matrix_squared_sum_right_linear {d n : ℕ} (X : Matrix (Fin d) (Fin d) ℚ)
    (g : ℕ → Matrix (Fin d) (Fin d) ℚ) (y : ℕ → ℚ) :
    matrix_squared_sum X (∑ q ∈ Finset.range n, y q • g q) =
      ∑ q ∈ Finset.range n, y q * matrix_squared_sum X (g q) := by
  unfold matrix_squared_sum
  simp only [Matrix.sum_apply, Matrix.smul_apply, smul_eq_mul, Finset.mul_sum]
  calc ∑ r : Fin d, ∑ c : Fin d, ∑ q ∈ Finset.range n, X r c * (y q * g q r c)
      = ∑ r : Fin d, ∑ q ∈ Finset.range n, ∑ c : Fin d, X r c * (y q * g q r c) :=
        Finset.sum_congr rfl fun _ _ => Finset.sum_comm
    _ = ∑ q ∈ Finset.range n, ∑ r : Fin d, ∑ c : Fin d, X r c * (y q * g q r c) :=
        Finset.sum_comm
    _ = ∑ q ∈ Finset.range n, ∑ r : Fin d, ∑ c : Fin d, y q * (X r c * g q r c) := by
        refine Finset.sum_congr rfl fun q _ => Finset.sum_congr rfl fun r _ =>
          Finset.sum_congr rfl fun c _ => by ring

theorem matrix_squared_sum_left_linear {d n : ℕ} (Y : Matrix (Fin d) (Fin d) ℚ)
    (f : ℕ → Matrix (Fin d) (Fin d) ℚ) (x : ℕ → ℚ) :
    matrix_squared_sum (∑ p ∈ Finset.range n, x p • f p) Y =
      ∑ p ∈ Finset.range n, x p * matrix_squared_sum (f p) Y := by
  rw [matrix_squared_sum_comm, matrix_squared_sum_right_linear]
  exact Finset.sum_congr rfl fun p _ => by rw [matrix_squared_sum_comm]

theorem gram_expand {d n : ℕ} (f : ℕ → Matrix (Fin d) (Fin d) ℚ) (x : ℕ → ℚ) :
    matrix_squared_sum (∑ p ∈ Finset.range n, x p • f p)
        (∑ q ∈ Finset.range n, x q • f q) =
      ∑ p ∈ Finset.range n, ∑ q ∈ Finset.range n,
        x p * x q * matrix_squared_sum (f p) (f q) := by
  rw [matrix_squared_sum_left_linear]
  refine Finset.sum_congr rfl fun p _ => ?_
  rw [matrix_squared_sum_right_linear, Finset.mul_sum]
  exact Finset.sum_congr rfl fun q _ => by ring

/-- C2: every call to `_update_lstsq_matrices` (and hence every `estimate`
call) subtracts the electrostatic Hessian from the stored reference Hessian
buffer in place: after the call `system.ref.hess` equals its prior contents
minus `model.ei.calc_hessian(coords)`, so the caller-owned reference data is
modified by the refresh (it genuinely changes whenever the electrostatic
Hessian is nonzero) rather than left unchanged. -/
theorem claim_C2_refresh_mutates_reference {d : ℕ} (sys : SystemState d)
    (mdl : ModelState d) :
    (update_lstsq_matrices sys mdl).1.refHess = sys.refHess - mdl.eiHess
    ∧ (mdl.eiHess ≠ 0 →
        (update_lstsq_matrices sys mdl).1.refHess ≠ sys.refHess) := by
  refine ⟨rfl, fun hne h => hne ?_⟩
  rw [show (update_lstsq_matrices sys mdl).1.refHess =
    sys.refHess - mdl.eiHess from rfl] at h
  exact sub_eq_self.mp h

/-- Witness for C2: at the concrete instance the electrostatic Hessian is
nonzero and the refresh changes `system.ref.hess`. -/
theorem claim_C2_witness :
    (update_lstsq_matrices sys1 mdl1).1.refHess ≠ sys1.refHess := by
  have hne : mdl1.eiHess ≠ 0 := by
    intro h
    have h0 := congrFun (congrFun h 0) 0
    simp [mdl1, e00, Matrix.zero_apply, Matrix.of_apply] at h0
  exact (claim_C2_refresh_mutates_reference sys1 mdl1).2 hne

/-- C4: the refresh computes `residual = ab_initio_hessian - electrostatic_hessian`
element-wise once (the first conjunct: the stored reference becomes exactly
that residual), then for every ordered pair `(i, j)` with `j ≤ i` sets
`A[i][j] = A[j][i]` to the Frobenius inner product of `H_i` and `H_j`, sets
`B[i]` to the Frobenius inner product of `H_i` with the residual and `C` to
the Frobenius inner product of the residual with itself, where `H_i` is the
unit-force-constant Hessian of term group `i`; the resulting `A` is exactly
symmetric at all positions. -/
theorem claim_C4_refresh_formulas {d : ℕ} (sys : SystemState d)
    (mdl : ModelState d)
    (hlen : (sortedKeys sys.icKeys).length = mdl.nterms)
    (i j p q : ℕ) (hj : j ≤ i) (hi : i < mdl.nterms) :
    (update_lstsq_matrices sys mdl).1.refHess = sys.refHess - mdl.eiHess
    ∧ (update_lstsq_matrices sys mdl).2.1 i j =
        matrix_squared_sum (groupHess mdl.vtermHess (sortedKeys sys.icKeys) i)
          (groupHess mdl.vtermHess (sortedKeys sys.icKeys) j)
    ∧ (update_lstsq_matrices sys mdl).2.1 j i =
        matrix_squared_sum (groupHess mdl.vtermHess (sortedKeys sys.icKeys) i)
          (groupHess mdl.vtermHess (sortedKeys sys.icKeys) j)
    ∧ (update_lstsq_matrices sys mdl).2.1 p q = (update_lstsq_matrices sys mdl).2.1 q p
    ∧ (update_lstsq_matrices sys mdl).2.2.1.getD i 0 =
        matrix_squared_sum (groupHess mdl.vtermHess (sortedKeys sys.icKeys) i)
          (sys.refHess - mdl.eiHess)
    ∧ (update_lstsq_matrices sys mdl).2.2.2 =
        matrix_squared_sum (sys.refHess - mdl.eiHess) (sys.refHess - mdl.eiHess) := by
  obtain ⟨h1, _, hA, _, hB, hC⟩ := update_spec sys mdl
  have hiL : i < (sortedKeys sys.icKeys).length := by omega
  have hjL : j < (sortedKeys sys.icKeys).length := by omega
  refine ⟨h1, ?_, ?_, ?_, ?_, hC⟩
  · rw [hA i j, if_pos ⟨hiL, hjL⟩, if_pos hj]
  · rw [hA j i, if_pos ⟨hjL, hiL⟩]
    rcases Nat.eq_or_lt_of_le hj with heq | hlt
    · rw [heq, if_pos (Nat.le_refl _)]
    · rw [if_neg (by omega)]
  · rw [hA p q, hA q p]
    split_ifs <;>
      first
        | rfl
        | omega
        | exact matrix_squared_sum_comm _ _
  · rw [hB i, if_pos ⟨hiL, hi⟩]

/-- Witness for C4: at the concrete one-term instance the length hypothesis
holds and the computed `C` is the Frobenius square of the residual. -/
theorem claim_C4_witness :
    (sortedKeys sys1.icKeys).length = mdl1.nterms
    ∧ (update_lstsq_matrices sys1 mdl1).2.2.2 =
        matrix_squared_sum (sys1.refHess - mdl1.eiHess)
          (sys1.refHess - mdl1.eiHess) :=
  ⟨by decide,
    (claim_C4_refresh_formulas sys1 mdl1 (by decide) 0 0 0 0 (Nat.le_refl 0)
      (by decide)).2.2.2.2.2⟩

/-- C8: after every refresh the computed quadratic form satisfies `C ≥ 0`
and `A` is positive semidefinite: `xᵀAx ≥ 0` for every vector `x`, because
`A` is the Gram matrix of the per-group unit Hessians under the Frobenius
inner product and `C` is a sum of squares. -/
theorem claim_C8_psd {d : ℕ} (sys : SystemState d) (mdl : ModelState d)
    (hlen : (sortedKeys sys.icKeys).length = mdl.nterms) (x : ℕ → ℚ) :
    0 ≤ (update_lstsq_matrices sys mdl).2.2.2
    ∧ 0 ≤ ∑ p ∈ Finset.range mdl.nterms, ∑ q ∈ Finset.range mdl.nterms,
        x p * (update_lstsq_matrices sys mdl).2.1 p q * x q := by
  obtain ⟨_, _, hA, _, _, hC⟩ := update_spec sys mdl
  constructor
  · rw [hC]
    exact matrix_squared_sum_self_nonneg _
  · have key : ∑ p ∈ Finset.range mdl.nterms, ∑ q ∈ Finset.range mdl.nterms,
        x p * (update_lstsq_matrices sys mdl).2.1 p q * x q =
        matrix_squared_sum
          (∑ p ∈ Finset.range mdl.nterms,
            x p • groupHess mdl.vtermHess (sortedKeys sys.icKeys) p)
          (∑ q ∈ Finset.range mdl.nterms,
            x q • groupHess mdl.vtermHess (sortedKeys sys.icKeys) q) := by
      rw [gram_expand]
      refine Finset.sum_congr rfl fun p hp => Finset.sum_congr rfl fun q hq => ?_
      rw [hA p q,
        if_pos ⟨by rw [hlen]; exact Finset.mem_range.mp hp,
          by rw [hlen]; exact Finset.mem_range.mp hq⟩]
      by_cases hqp : q ≤ p
      · rw [if_pos hqp]
        ring
      · rw [if_neg hqp, matrix_squared_sum_comm]
        ring
    rw [key]
    exact matrix_squared_sum_self_nonneg _

/-- Witness for C8: at the concrete instance both parts of the invariant hold
for the all-ones vector. -/
theorem claim_C8_witness :
    0 ≤ (update_lstsq_matrices sys1 mdl1).2.2.2
    ∧ 0 ≤ ∑ p ∈ Finset.range mdl1.nterms, ∑ q ∈ Finset.range mdl1.nterms,
        (1 : ℚ) * (update_lstsq_matrices sys1 mdl1).2.1 p q * 1 :=
  claim_C8_psd sys1 mdl1 (by decide) (fun _ => 1)

/-- C9: under the collaborator contract that `system.ics` and
`model.val.vterms` hold the same internal-coordinate name set (spec section 6),
the index mapping used by the refresh (position in
`sorted(system.ics.keys())`) and the one used by the constraint builder
(position in `sorted(model.val.vterms.keys())`) coincide at every index, and
both are the position in the lexicographic sort of the internal-coordinate
names: the shared list is sorted for the lexicographic order and is a
permutation of the key set. -/
theorem claim_C9_canonical_order {d : ℕ} (sys : SystemState d)
    (mdl : ModelState d) (hkeys : sys.icKeys.Perm mdl.vtermKeys) (i : ℕ) :
    sortedKeys sys.icKeys = sortedKeys mdl.vtermKeys
    ∧ (sortedKeys sys.icKeys).getD i "" = (sortedKeys mdl.vtermKeys).getD i ""
    ∧ List.Sorted strLe (sortedKeys sys.icKeys)
    ∧ (sortedKeys sys.icKeys).Perm sys.icKeys := by
  have hs1 : List.Sorted strLe (sortedKeys sys.icKeys) :=
    List.sorted_insertionSort strLe _
  have hs2 : List.Sorted strLe (sortedKeys mdl.vtermKeys) :=
    List.sorted_insertionSort strLe _
  have hp1 : (sortedKeys sys.icKeys).Perm sys.icKeys :=
    List.perm_insertionSort strLe _
  have hp2 : (sortedKeys mdl.vtermKeys).Perm mdl.vtermKeys :=
    List.perm_insertionSort strLe _
  have heq : sortedKeys sys.icKeys = sortedKeys mdl.vtermKeys :=
    List.eq_of_perm_of_sorted (hp1.trans (hkeys.trans hp2.symm)) hs1 hs2
  exact ⟨heq, by rw [heq], hs1, hp1⟩

/-- Witness for C9: the key sets of the concrete system and model agree, and
the two sorted key lists coincide. -/
theorem claim_C9_witness :
    sortedKeys sys1.icKeys = sortedKeys mdl1.vtermKeys :=
  (claim_C9_canonical_order sys1 mdl1 (by decide) 0).1


/-- C1 fails on the code (a code bug): `_update_lstsq_matrices` binds `ref` to
a numpy reshape *view* of `system.ref.hess` and executes `ref -= ...` in
place, so re-running the refresh on the very same objects subtracts the
electrostatic Hessian a second time.  At the concrete one-term instance the
first run yields `B = [0]` and `C = 0`, while the second run, reading the
reference state the first run silently mutated, yields `B = [-1]` and `C = 1`
(`A` happens to agree because it does not depend on the reference Hessian),
and after the first run the reference Hessian no longer equals the caller's
original data — contradicting the spec's promise of bit-identical `A`, `B`,
`C` and no state leakage. -/
theorem claim_C1_second_refresh_differs :
    ((update_lstsq_matrices ((update_lstsq_matrices sys1 mdl1).1) mdl1).2.2.2 ≠
      (update_lstsq_matrices sys1 mdl1).2.2.2)
    ∧ ((update_lstsq_matrices ((update_lstsq_matrices sys1 mdl1).1) mdl1).2.2.1.getD 0 0 ≠
      (update_lstsq_matrices sys1 mdl1).2.2.1.getD 0 0)
    ∧ (update_lstsq_matrices sys1 mdl1).2.2.2 = 0
    ∧ (update_lstsq_matrices ((update_lstsq_matrices sys1 mdl1).1) mdl1).2.2.2 = 1
    ∧ (update_lstsq_matrices sys1 mdl1).2.2.1.getD 0 0 = 0
    ∧ (update_lstsq_matrices ((update_lstsq_matrices sys1 mdl1).1) mdl1).2.2.1.getD 0 0 = -1
    ∧ (update_lstsq_matrices sys1 mdl1).1.refHess ≠ sys1.refHess := by
  obtain ⟨h1a, h1keys, _, _, h1B, h1C⟩ := update_spec sys1 mdl1
  obtain ⟨h2a, h2keys, _, _, h2B, h2C⟩ :=
    update_spec ((update_lstsq_matrices sys1 mdl1).1) mdl1
  have e1 : sys1.refHess - mdl1.eiHess = 0 := by
    show e00 - e00 = 0
    exact sub_self e00
  have hs2 : (update_lstsq_matrices sys1 mdl1).1.refHess = 0 := by rw [h1a, e1]
  have e2 : (update_lstsq_matrices sys1 mdl1).1.refHess - mdl1.eiHess = -e00 := by
    rw [hs2]
    show (0 : Matrix (Fin 3) (Fin 3) ℚ) - e00 = -e00
    exact zero_sub e00
  have hsort : sortedKeys sys1.icKeys = ["bond/1"] := by decide
  have hsort2 : sortedKeys ((update_lstsq_matrices sys1 mdl1).1.icKeys) = ["bond/1"] := by
    rw [h1keys, hsort]
  have hg : groupHess mdl1.vtermHess ["bond/1"] 0 = e00 := by
    simp [groupHess, mdl1]
  have hmss00 : matrix_squared_sum (0 : Matrix (Fin 3) (Fin 3) ℚ) 0 = 0 := by
    simp [matrix_squared_sum]
  have hmssE0 : matrix_squared_sum e00 (0 : Matrix (Fin 3) (Fin 3) ℚ) = 0 := by
    simp [matrix_squared_sum]
  have hmssEN : matrix_squared_sum e00 (-e00) = -1 := by
    norm_num [matrix_squared_sum, e00, Fin.sum_univ_succ, Matrix.of_apply,
      Fin.ext_iff, Matrix.neg_apply]
  have hmssNN : matrix_squared_sum (-e00) (-e00) = 1 := by
    norm_num [matrix_squared_sum, e00, Fin.sum_univ_succ, Matrix.of_apply,
      Fin.ext_iff, Matrix.neg_apply]
  have hC1 : (update_lstsq_matrices sys1 mdl1).2.2.2 = 0 := by
    rw [h1C, e1, hmss00]
  have hC2 : (update_lstsq_matrices ((update_lstsq_matrices sys1 mdl1).1) mdl1).2.2.2 = 1 := by
    rw [h2C, e2, hmssNN]
  have hB1 : (update_lstsq_matrices sys1 mdl1).2.2.1.getD 0 0 = 0 := by
    rw [h1B 0, if_pos ⟨by rw [hsort]; decide, by decide⟩, hsort, hg, e1, hmssE0]
  have hB2 :
      (update_lstsq_matrices ((update_lstsq_matrices sys1 mdl1).1) mdl1).2.2.1.getD 0 0 = -1 := by
    rw [h2B 0, if_pos ⟨by rw [hsort2]; decide, by decide⟩, hsort2, hg, e2, hmssEN]
  refine ⟨by rw [hC1, hC2]; norm_num, by rw [hB1, hB2]; norm_num,
    hC1, hC2, hB1, hB2, ?_⟩
  rw [hs2]
  intro h
  have h0 := congrFun (congrFun h.symm 0) 0
  simp [sys1, e00, Matrix.of_apply, Matrix.zero_apply] at h0

theorem oneHot_length (n i : ℕ) (v : ℚ) : (oneHot n i v).length = n := by
  simp [oneHot]

theorem oneHot_getD (n i p : ℕ) (v : ℚ) (hp : p < n) :
    (oneHot n i v).getD p 0 = if p = i then v else 0 := by
  unfold oneHot
  rw [List.getD_eq_getElem _ _ (by simpa using hp)]
  simp

/-- C6: for every constraint produced for index `i` (at any `npars = nterms`)
and every parameter vector `k` of length `nterms`: the fixed-value constraint
is an equality with value `k[i] - v`, zero exactly when `k[i] = v`, and the
`+1` one-hot jacobian at `i`; the lower-limit constraint is an inequality with
value `k[i] - L` and the `+1` one-hot jacobian; the upper-limit constraint is
an inequality with value `U - k[i]` and the `-1` one-hot jacobian; all three
jacobians are constant with respect to `k`. -/
theorem claim_C6_constraint_semantics (i : ℕ) (v low up : ℚ) (n : ℕ)
    (k k2 : List ℚ) (p : ℕ) (hk : k.length = n) (hp : p < n) :
    ((FixedValueConstraint.mk i v n).call.ctype = "eq"
      ∧ (FixedValueConstraint.mk i v n).call.cfun k = k.getD i 0 - v
      ∧ ((FixedValueConstraint.mk i v n).call.cfun k = 0 ↔ k.getD i 0 = v)
      ∧ ((FixedValueConstraint.mk i v n).call.cjac k).length = n
      ∧ ((FixedValueConstraint.mk i v n).call.cjac k).getD p 0 =
          (if p = i then 1 else 0)
      ∧ (FixedValueConstraint.mk i v n).call.cjac k =
          (FixedValueConstraint.mk i v n).call.cjac k2)
    ∧ ((LowerLimitConstraint.mk i low n).call.ctype = "ineq"
      ∧ (LowerLimitConstraint.mk i low n).call.cfun k = k.getD i 0 - low
      ∧ ((LowerLimitConstraint.mk i low n).call.cjac k).length = n
      ∧ ((LowerLimitConstraint.mk i low n).call.cjac k).getD p 0 =
          (if p = i then 1 else 0)
      ∧ (LowerLimitConstraint.mk i low n).call.cjac k =
          (LowerLimitConstraint.mk i low n).call.cjac k2)
    ∧ ((UpperLimitConstraint.mk i up n).call.ctype = "ineq"
      ∧ (UpperLimitConstraint.mk i up n).call.cfun k = up - k.getD i 0
      ∧ ((UpperLimitConstraint.mk i up n).call.cjac k).length = n
      ∧ ((UpperLimitConstraint.mk i up n).call.cjac k).getD p 0 =
          (if p = i then -1 else 0)
      ∧ (UpperLimitConstraint.mk i up n).call.cjac k =
          (UpperLimitConstraint.mk i up n).call.cjac k2) :=
  ⟨⟨rfl, rfl, sub_eq_zero, oneHot_length n i 1, oneHot_getD n i p 1 hp, rfl⟩,
    ⟨rfl, rfl, oneHot_length n i 1, oneHot_getD n i p 1 hp, rfl⟩,
    ⟨rfl, rfl, oneHot_length n i (-1), oneHot_getD n i p (-1) hp, rfl⟩⟩

/-- Witness for C6 at a concrete instance: length hypothesis and two sample
conclusions. -/
theorem claim_C6_witness :
    ((5 : ℚ) :: [9]).length = 2
    ∧ (FixedValueConstraint.mk 0 (5 : ℚ) 2).call.ctype = "eq"
    ∧ ((UpperLimitConstraint.mk 0 (7 : ℚ) 2).call.cjac [5, 9]).getD 1 0 =
        (if (1 : ℕ) = 0 then -1 else 0) :=
  ⟨by decide,
    (claim_C6_constraint_semantics 0 5 0 7 2 [5, 9] [1, 2] 1 (by decide)
      (by decide)).1.1,
    (claim_C6_constraint_semantics 0 5 0 7 2 [5, 9] [1, 2] 1 (by decide)
      (by decide)).2.2.2.2.2.1⟩

theorem chunk_ineq_of_not_fixed {d : ℕ} (kjmol : ℚ) (mdl : ModelState d)
    (fixed : Option (List String)) (kinit : List ℚ) (i : ℕ) (cd : Cdict)
    (hf : fixedHit fixed ((sortedKeys mdl.vtermKeys).getD i "") = false)
    (hmem : cd ∈ constraintChunk kjmol mdl fixed kinit i) : cd.ctype = "ineq" := by
  simp only [constraintChunk] at hmem
  rw [hf] at hmem
  cases hd : isDihed ((sortedKeys mdl.vtermKeys).getD i "") with
  | true =>
    rw [hd] at hmem
    simp only [Bool.false_eq_true, if_false, if_true] at hmem
    rcases List.mem_cons.mp hmem with h | h
    · rw [h]; rfl
    · rw [List.mem_singleton.mp h]; rfl
  | false =>
    rw [hd] at hmem
    simp only [Bool.false_eq_true, if_false] at hmem
    rw [List.mem_singleton.mp hmem]; rfl

theorem define_constraints_all_ineq {d : ℕ} (kjmol : ℚ) (mdl : ModelState d)
    (fixed : Option (List String)) (kinit : List ℚ) (cd : Cdict)
    (hf : ∀ name, fixedHit fixed name = false)
    (hmem : cd ∈ define_constraints kjmol mdl fixed kinit) : cd.ctype = "ineq" := by
  unfold define_constraints at hmem
  rw [List.mem_flatten] at hmem
  obtain ⟨l, hl, hcd⟩ := hmem
  rw [List.mem_map] at hl
  obtain ⟨j, _, rfl⟩ := hl
  exact chunk_ineq_of_not_fixed kjmol mdl fixed kinit j cd (hf _) hcd

/-- C5: for every term index `i` in the constraint build, with
`icname = sorted(vterms.keys())[i]`: if the name's kind part before `'/'` is
in the caller-supplied fixed set, exactly one equality constraint pinning
`k[i]` to `kinit[i]` is emitted; otherwise, if the name indicates a dihedral,
exactly two inequality constraints bounding `k[i]` into `[0, 200*kjmol]` are
emitted; otherwise exactly one inequality constraint `k[i] ≥ 0` is emitted.
Every term contributes a nonempty constraint chunk, and when `fixed` is `None`
or the empty set, every constraint in the full set is an inequality. -/
theorem claim_C5_constraint_rules {d : ℕ} (kjmol : ℚ) (mdl : ModelState d)
    (fixed : Option (List String)) (kinit : List ℚ) (i : ℕ) (cd : Cdict)
    (hwf : mdl.vtermKeys.length = mdl.nterms) (hi : i < mdl.nterms) :
    (fixedHit fixed ((sortedKeys mdl.vtermKeys).getD i "") = true →
      constraintChunk kjmol mdl fixed kinit i =
        [(FixedValueConstraint.mk i (kinit.getD i 0) mdl.nterms).call])
    ∧ (fixedHit fixed ((sortedKeys mdl.vtermKeys).getD i "") = false →
        isDihed ((sortedKeys mdl.vtermKeys).getD i "") = true →
        constraintChunk kjmol mdl fixed kinit i =
          [(LowerLimitConstraint.mk i (0 * kjmol) mdl.nterms).call,
           (UpperLimitConstraint.mk i (200 * kjmol) mdl.nterms).call])
    ∧ (fixedHit fixed ((sortedKeys mdl.vtermKeys).getD i "") = false →
        isDihed ((sortedKeys mdl.vtermKeys).getD i "") = false →
        constraintChunk kjmol mdl fixed kinit i =
          [(LowerLimitConstraint.mk i 0 mdl.nterms).call])
    ∧ constraintChunk kjmol mdl fixed kinit i ≠ []
    ∧ (cd ∈ define_constraints kjmol mdl none kinit → cd.ctype = "ineq")
    ∧ (cd ∈ define_constraints kjmol mdl (some []) kinit → cd.ctype = "ineq") := by
  refine ⟨?_, ?_, ?_, ?_, ?_, ?_⟩
  · intro h
    simp only [constraintChunk]
    rw [h, if_pos rfl]
  · intro h1 h2
    simp only [constraintChunk]
    rw [h1, if_neg (by simp), h2, if_pos rfl]
  · intro h1 h2
    simp only [constraintChunk]
    rw [h1, if_neg (by simp), h2, if_neg (by simp)]
  · simp only [constraintChunk]
    split_ifs <;> simp
  · exact fun hmem =>
      define_constraints_all_ineq kjmol mdl none kinit cd (fun _ => rfl) hmem
  · exact fun hmem =>
      define_constraints_all_ineq kjmol mdl (some []) kinit cd
        (fun name => by simp [fixedHit]) hmem

/-- Witness for C5 at the concrete three-term model: the dihedral term (index
2 in sorted order) with `"bond"` fixed receives exactly the two inequality
bounds. -/
theorem claim_C5_witness :
    constraintChunk 1 mdl3 (some ["bond"]) [5, 7, 11] 2 =
      [(LowerLimitConstraint.mk 2 ((0 : ℚ) * 1) mdl3.nterms).call,
       (UpperLimitConstraint.mk 2 ((200 : ℚ) * 1) mdl3.nterms).call] :=
  (claim_C5_constraint_rules 1 mdl3 (some ["bond"]) [5, 7, 11] 2
    (LowerLimitConstraint.mk 0 0 0).call (by decide) (by decide)).2.1
    (by decide) (by decide)

theorem map_range_sum (f : ℕ → ℚ) (n : ℕ) :
    ((List.range n).map f).sum = ∑ j ∈ Finset.range n, f j := by
  induction n with
  | zero => simp
  | succ n ih =>
    rw [List.range_succ, List.map_append, List.sum_append, Finset.sum_range_succ, ih]
    simp

theorem map_range_getD (f : ℕ → ℚ) (n p : ℕ) (hp : p < n) :
    ((List.range n).map f).getD p 0 = f p := by
  rw [List.getD_eq_getElem _ _ (by simpa using hp)]
  simp

theorem zip_mul_sum (v w : List ℚ) (n : ℕ) (hv : v.length = n) (hw : w.length = n) :
    (List.zipWith (· * ·) v w).sum =
      ∑ j ∈ Finset.range n, v.getD j 0 * w.getD j 0 := by
  induction n generalizing v w with
  | zero =>
    rw [List.length_eq_zero.mp hv, List.length_eq_zero.mp hw]
    simp
  | succ n ih =>
    cases v with
    | nil => simp at hv
    | cons a as =>
      cases w with
      | nil => simp at hw
      | cons b bs =>
        rw [List.zipWith_cons_cons, List.sum_cons, Finset.sum_range_succ']
        simp only [List.getD_cons_succ, List.getD_cons_zero]
        rw [ih as bs (by simpa using hv) (by simpa using hw)]
        ring

theorem zip_sub_map_range (w : List ℚ) (f : ℕ → ℚ) (n : ℕ) (hw : w.length = n) :
    List.zipWith (· - ·) ((List.range n).map f) w =
      (List.range n).map (fun i => f i - w.getD i 0) := by
  apply List.ext_getElem
  · simp [hw]
  · intro i h1 h2
    have hi : i < n := by simpa using h2
    rw [List.getElem_zipWith]
    simp only [List.getElem_map, List.getElem_range]
    rw [List.getD_eq_getElem w 0 (by omega)]

theorem costfun_eval {d : ℕ} (c : HessianFCCost d) (k : List ℚ) (dg : Bool)
    (hk : k.length = c.model.nterms) (hB : c.B.length = c.model.nterms) :
    c.costfun k dg = some
      ((1 / 2 : ℚ) * (List.zipWith (· * ·) k ((List.range c.model.nterms).map
          (fun i => ((List.range c.model.nterms).map
            (fun j => c.A i j * k.getD j 0)).sum))).sum
        - (List.zipWith (· * ·) c.B k).sum + (1 / 2 : ℚ) * c.C,
      if dg then
        some (List.zipWith (· - ·) ((List.range c.model.nterms).map
          (fun i => ((List.range c.model.nterms).map
            (fun j => c.A i j * k.getD j 0)).sum)) c.B)
      else none) := by
  have hAk : npdotMat c.model.nterms c.A k = some ((List.range c.model.nterms).map
      (fun i => ((List.range c.model.nterms).map (fun j => c.A i j * k.getD j 0)).sum)) := by
    unfold npdotMat
    rw [if_pos hk]
  have hv1 : npdotVec k ((List.range c.model.nterms).map
      (fun i => ((List.range c.model.nterms).map (fun j => c.A i j * k.getD j 0)).sum)) =
      some ((List.zipWith (· * ·) k ((List.range c.model.nterms).map
        (fun i => ((List.range c.model.nterms).map (fun j => c.A i j * k.getD j 0)).sum))).sum) := by
    unfold npdotVec
    rw [if_pos (by simp [hk])]
  have hv2 : npdotVec c.B k = some ((List.zipWith (· * ·) c.B k).sum) := by
    unfold npdotVec
    rw [if_pos (by rw [hB, hk])]
  simp only [HessianFCCost.costfun, hAk, hv1, hv2]
  cases dg <;> rfl

/-- C7: for every stored `A`, `B`, `C` and every parameter vector `k` of
length `nterms` (with `B` of the shape the object maintains), the cost
evaluation returns exactly `chi2(k) = 1/2 kᵀAk - Bᵀk + 1/2 C`, and when the
gradient is requested it additionally returns `Ak - B`; the evaluation is a
pure function of the stored coefficients and `k` (the embedding returns a
value and no modified state). -/
theorem claim_C7_cost_formula {d : ℕ} (c : HessianFCCost d) (k : List ℚ)
    (dg : Bool) (hk : k.length = c.model.nterms)
    (hB : c.B.length = c.model.nterms) :
    c.costfun k dg = some
      ((1 / 2 : ℚ) * (∑ i ∈ Finset.range c.model.nterms,
          ∑ j ∈ Finset.range c.model.nterms,
          k.getD i 0 * c.A i j * k.getD j 0)
        - (∑ i ∈ Finset.range c.model.nterms, c.B.getD i 0 * k.getD i 0)
        + (1 / 2 : ℚ) * c.C,
      if dg then
        some ((List.range c.model.nterms).map
          (fun i => (∑ j ∈ Finset.range c.model.nterms, c.A i j * k.getD j 0)
            - c.B.getD i 0))
      else none) := by
  rw [costfun_eval c k dg hk hB]
  have h1 : (List.zipWith (· * ·) k ((List.range c.model.nterms).map
      (fun i => ((List.range c.model.nterms).map
        (fun j => c.A i j * k.getD j 0)).sum))).sum =
      ∑ i ∈ Finset.range c.model.nterms,
        ∑ j ∈ Finset.range c.model.nterms, k.getD i 0 * c.A i j * k.getD j 0 := by
    rw [zip_mul_sum _ _ c.model.nterms hk (by simp)]
    refine Finset.sum_congr rfl fun i hi => ?_
    rw [map_range_getD _ _ _ (Finset.mem_range.mp hi), map_range_sum,
      Finset.mul_sum]
    exact Finset.sum_congr rfl fun j _ => by ring
  have h2 : (List.zipWith (· * ·) c.B k).sum =
      ∑ i ∈ Finset.range c.model.nterms, c.B.getD i 0 * k.getD i 0 :=
    zip_mul_sum _ _ _ hB hk
  rw [h1, h2]
  cases dg
  · rfl
  · rw [if_pos rfl, if_pos rfl, zip_sub_map_range c.B _ _ hB]
    simp only [map_range_sum]

/-- Witness for C7: the formula holds at the concrete freshly initialized cost
object with the stored force constants as input. -/
theorem claim_C7_witness :
    ((300 : ℚ) :: []).length = cost1.model.nterms
    ∧ cost1.costfun [300] true = some
      ((1 / 2 : ℚ) * (∑ i ∈ Finset.range cost1.model.nterms,
          ∑ j ∈ Finset.range cost1.model.nterms,
          ([300] : List ℚ).getD i 0 * cost1.A i j * ([300] : List ℚ).getD j 0)
        - (∑ i ∈ Finset.range cost1.model.nterms,
            cost1.B.getD i 0 * ([300] : List ℚ).getD i 0)
        + (1 / 2 : ℚ) * cost1.C,
      if true then
        some ((List.range cost1.model.nterms).map
          (fun i => (∑ j ∈ Finset.range cost1.model.nterms,
            cost1.A i j * ([300] : List ℚ).getD j 0) - cost1.B.getD i 0))
      else none) :=
  ⟨by decide, claim_C7_cost_formula cost1 [300] true (by decide) (by decide)⟩

/-- C10: the cost evaluation fails (numpy shape error, modelled as `none`) for
every parameter vector `k` whose length differs from `nterms`, rather than
silently truncating or padding; for `k` of length `nterms` it never fails. -/
theorem claim_C10_shape_check {d : ℕ} (c : HessianFCCost d) (k : List ℚ)
    (dg : Bool) (hB : c.B.length = c.model.nterms) :
    (k.length ≠ c.model.nterms → c.costfun k dg = none)
    ∧ (k.length = c.model.nterms → (c.costfun k dg).isSome = true) := by
  constructor
  · intro hk
    have hmat : npdotMat c.model.nterms c.A k = none := by
      unfold npdotMat
      rw [if_neg hk]
    simp only [HessianFCCost.costfun, hmat]
  · intro hk
    rw [costfun_eval c k dg hk hB]
    rfl

/-- Witness for C10: at the concrete cost object the empty vector fails and a
length-1 vector succeeds. -/
theorem claim_C10_witness :
    cost1.costfun [] false = none
    ∧ (cost1.costfun [300] false).isSome = true :=
  ⟨(claim_C10_shape_check cost1 [] false (by decide)).1 (by decide),
    (claim_C10_shape_check cost1 [300] false (by decide)).2 (by decide)⟩

theorem costfun_false_grad {d : ℕ} (c : HessianFCCost d) (k : List ℚ)
    (r : ℚ × Option (List ℚ)) (h : c.costfun k false = some r) : r.2 = none := by
  unfold HessianFCCost.costfun at h
  split at h
  · exact absurd h (by simp)
  · split at h
    · simp only [Bool.false_eq_true, if_false, Option.some.injEq] at h
      rw [← h]
    · exact absurd h (by simp)

theorem sort1 : sortedKeys sys1.icKeys = ["bond/1"] := by decide

theorem sys1_residual : sys1.refHess - mdl1.eiHess = 0 := by
  show e00 - e00 = 0
  exact sub_self e00

theorem groupHess1 : groupHess mdl1.vtermHess ["bond/1"] 0 = e00 := by
  simp [groupHess, mdl1]

theorem mss_e00_zero : matrix_squared_sum e00 (0 : Matrix (Fin 3) (Fin 3) ℚ) = 0 := by
  simp [matrix_squared_sum]

theorem update1_B : (update_lstsq_matrices sys1 mdl1).2.2.1 = [0] := by
  obtain ⟨_, _, _, hlen, hB, _⟩ := update_spec sys1 mdl1
  apply List.ext_getElem
  · rw [hlen]
    rfl
  · intro i h1 h2
    have hn1 : mdl1.nterms = 1 := rfl
    have hi : i = 0 := by
      rw [hlen, hn1] at h1
      omega
    subst hi
    rw [← List.getD_eq_getElem _ 0 h1, hB 0,
      if_pos ⟨by rw [sort1]; decide, by decide⟩, sort1, groupHess1, sys1_residual,
      mss_e00_zero]
    rfl

theorem update1_C : (update_lstsq_matrices sys1 mdl1).2.2.2 = 0 := by
  obtain ⟨_, _, _, _, _, hC⟩ := update_spec sys1 mdl1
  rw [hC, sys1_residual]
  simp [matrix_squared_sum]

theorem cost1_objective_value :
    (estimateArgs (1 : ℚ) cost1 none).objective [0] = some (0, none) := by
  have hB : (cost1.update).B.length = (cost1.update).model.nterms :=
    (update_spec cost1.system cost1.model).2.2.2.1
  have hk : ([0] : List ℚ).length = (cost1.update).model.nterms := by decide
  have heval := costfun_eval (cost1.update) [0] false hk hB
  rw [show (estimateArgs (1 : ℚ) cost1 none).objective [0] =
    (cost1.update).costfun [0] false from rfl, heval]
  rw [show (cost1.update).model.nterms = 1 from rfl]
  rw [show (cost1.update).B = (update_lstsq_matrices sys1 mdl1).2.2.1 from rfl,
    update1_B]
  rw [show (cost1.update).C = (update_lstsq_matrices sys1 mdl1).2.2.2 from rfl,
    update1_C]
  have hr1 : List.range 1 = [0] := rfl
  rw [hr1]
  norm_num

/-- C3 fails on the code as stated: `estimate` passes `self.fun` to the
external optimizer with `do_grad` left at its default `False` and no `jac`
argument, so the objective hands the optimizer only the cost value, never the
gradient — refuting the claim that the objective supplies both value and
gradient.  At the concrete instance the objective returns `(0, none)`:
the gradient slot is empty. -/
theorem claim_C3_counterexample :
    ¬ (∀ k r, (estimateArgs (1 : ℚ) cost1 none).objective k = some r →
        r.2.isSome = true) := by
  intro hcl
  have h2 := hcl [0] (0, none) cost1_objective_value
  simp at h2

/-- C3 amended: `estimate(fixed)` reads `kinit` from `model.val.get_fcs()`,
builds the constraint set from `fixed` and `kinit`, refreshes `A`, `B`, `C`,
then invokes the external constrained optimizer with an objective supplying
the cost value only (`fun` is passed with `do_grad` defaulting to `False` and
no `jac`, so the gradient slot of every objective evaluation is empty),
initial point `kinit`, the constraint set, convergence tolerance `1e-9` and no
iteration logging, and returns the optimizer's final parameter vector without
writing it back into the model's terms. -/
theorem claim_C3_amended {d : ℕ} (kjmol : ℚ) (c : HessianFCCost d)
    (fixed : Option (List String)) (opt : MinimizeArgs → List ℚ) :
    (estimateArgs kjmol c fixed).x0 = c.model.fcs
    ∧ (estimateArgs kjmol c fixed).constraints =
        define_constraints kjmol c.model fixed c.model.fcs
    ∧ (estimateArgs kjmol c fixed).tol = 1 / 1000000000
    ∧ (estimateArgs kjmol c fixed).disp = false
    ∧ (estimateArgs kjmol c fixed).method = "SLSQP"
    ∧ (estimateArgs kjmol c fixed).objective =
        (fun k => (HessianFCCost.update c).costfun k false)
    ∧ HessianFCCost.estimate kjmol c fixed opt =
        (opt (estimateArgs kjmol c fixed), c.update)
    ∧ (HessianFCCost.estimate kjmol c fixed opt).2.model = c.model
    ∧ (∀ k r, (estimateArgs kjmol c fixed).objective k = some r → r.2 = none) :=
  ⟨rfl, rfl, rfl, rfl, rfl, rfl, rfl, rfl,
    fun k r h => costfun_false_grad (HessianFCCost.update c) k r h⟩

/-- Witness for C3 (amended): at the concrete instance the objective passed to
the optimizer evaluates to a cost value with an empty gradient slot, as the
amended claim asserts for every evaluation. -/
theorem claim_C3_witness :
    (estimateArgs (1 : ℚ) cost1 none).objective [0] = some (0, none)
    ∧ (((0 : ℚ), (none : Option (List ℚ))) : ℚ × Option (List ℚ)).2 = none :=
  ⟨cost1_objective_value,
    (claim_C3_amended 1 cost1 none (fun _ => [])).2.2.2.2.2.2.2.2 [0] (0, none)
      cost1_objective_value⟩
